import Mathlib

/-!
Shallow embedding of `src/index.ts` of the devalue repository: the two-pass
serializer `devalue(value)` (reference-counting walk, then expression
emission), together with its primitive rendering helpers.

JavaScript values are modelled as a flat type `JSValue` of primitives,
callable values and references into an explicit heap (`Heap`), so that object
identity (the unit of deduplication in the source) is an address.  Numbers are
modelled as integers: every numeric literal exercised by the claims is an
integer, for which `String(n)` is plain decimal and neither the `-0` branch
nor the leading-`0.` strip of `stringifyPrimitive` fires.  JavaScript strings
are UTF-16 code-unit sequences; `stringifyString` is therefore modelled at the
code-unit level (`List Nat`), and Lean `String`s are converted through
encode/decode helpers.

The recursive `walk` of the source terminates on cyclic graphs through its
`counts` check; the Lean model makes every recursive call consume one unit of
fuel, so the recursion is structural (and kernel-reducible).  Running out of
fuel is the model's counterpart of stack exhaustion, which the specification
treats as a fatal resource condition distinct from an ordinary throw; the
only genuine throw in the source is the `TypeError` raised by the toJSON
splice `parent[key] = json` when `parent` is `undefined`.
-/

namespace Devalue

/-- Left and right curly brace as strings (used to assemble emitted text). -/
def lb : String := "\x7b"

def rb : String := "\x7d"

/-- A JavaScript value: primitives carry their content, every object is a
reference into the heap, and callable values carry only their `name`
(the only part of a function the source ever reads). -/
inductive JSValue where
  | undefv : JSValue
  | nullv : JSValue
  | bool : Bool → JSValue
  | num : Int → JSValue
  | str : String → JSValue
  | fn : String → JSValue
  | ref : Nat → JSValue
deriving DecidableEq, Repr

/-- Prototype lineage of a keyed record, as far as lines 111-117 of the source
inspect it: the base `Object.prototype`, `null`, or a custom prototype with a
constructor name and a flag telling whether its sorted own-property names
coincide with those of `Object.prototype` (the source's string comparison). -/
inductive Proto where
  | objectProto : Proto
  | nullProto : Proto
  | custom : String → Bool → Proto
deriving DecidableEq, Repr

/-- A heap object.  `arr` elements are `Option`s so that sparse arrays keep
their holes (`none`).  A `record` carries its prototype, its own enumerable
string-keyed fields in key-insertion order, the value its `toJSON` method
returns when invoked (if it has one), and the printed forms of its own
symbol keys. -/
inductive Obj where
  | arr : List (Option JSValue) → Obj
  | set : List JSValue → Obj
  | jsmap : List (JSValue × JSValue) → Obj
  | date : Int → Obj
  | regexp : String → Obj
  | boxedNum : Int → Obj
  | boxedStr : String → Obj
  | boxedBool : Bool → Obj
  | record : Proto → List (String × JSValue) → Option JSValue → List String → Obj
deriving DecidableEq, Repr

abbrev Heap := List (Nat × Obj)

def lookupObj : Heap → Nat → Option Obj
  | [], _ => none
  | (a', o) :: rest, a => if a' = a then some o else lookupObj rest a

def setObj : Heap → Nat → Obj → Heap
  | [], a, o => [(a, o)]
  | (a', o') :: rest, a, o =>
      if a' = a then (a, o) :: rest else (a', o') :: setObj rest a o

/-- A reference count.  `some n` is an ordinary count; `none` models the
JavaScript `NaN` that `counts.set(json, counts.get(json) + 1)` stores when
`json` is not in the map (`undefined + 1`).  `NaN > 1` is false, so such an
entry is never named. -/
abbrev Count := Option Nat

/-- The identity-keyed count table, with JavaScript `Map` semantics:
insertion order is preserved, updating an existing key keeps its position,
inserting a fresh key appends. -/
abbrev Counts := List (JSValue × Count)

def countsFind : Counts → JSValue → Option Count
  | [], _ => none
  | (k', c) :: rest, k => if k' = k then some c else countsFind rest k

def countsHas (c : Counts) (k : JSValue) : Bool := (countsFind c k).isSome

def countsSet : Counts → JSValue → Count → Counts
  | [], k, v => [(k, v)]
  | (k', v') :: rest, k, v =>
      if k' = k then (k, v) :: rest else (k', v') :: countsSet rest k v

def countsDel (c : Counts) (k : JSValue) : Counts :=
  c.filter (fun p => p.1 ≠ k)

/-- `x + 1` on a count: `NaN + 1` stays `NaN`. -/
def bumpOpt : Count → Count
  | some n => some (n + 1)
  | none => none

/-- `counts.get(k) + 1` where `k` may be absent: `undefined + 1` is `NaN`. -/
def bumpLookup (c : Counts) (k : JSValue) : Count :=
  match countsFind c k with
  | some cnt => bumpOpt cnt
  | none => none

/-- The per-call `mapObjToJSON` cache, keyed by the identity (address) of the
original toJSON-bearing record. -/
abbrev JsonCache := List (Nat × JSValue)

def cacheGet : JsonCache → Nat → Option JSValue
  | [], _ => none
  | (a', j) :: rest, a => if a' = a then some j else cacheGet rest a

def cacheSet : JsonCache → Nat → JSValue → JsonCache
  | [], a, j => [(a, j)]
  | (a', j') :: rest, a, j =>
      if a' = a then (a, j) :: rest else (a', j') :: cacheSet rest a j

/-- One diagnostic sent to the `consola` sink.  `capped = true` for messages
routed through the rate-limited `log` helper (lines 31-36); `capped = false`
for the callable-value message, which line 41 sends to `consola` directly. -/
structure Diag where
  capped : Bool
  msg : String
deriving DecidableEq, Repr

/-- Number of rate-limited diagnostics in an emission list. -/
def cappedLen (l : List Diag) : Nat := (l.filter (fun d => d.capped)).length

/-- Mutable state of one `devalue` call during the walk pass.  `toJSONCalls`
records, in order, the address of every original node whose `toJSON` method
the walk invokes (it is a proof artefact: the source has no such list, but the
invocations happen exactly where the model appends to it). -/
structure WState where
  heap : Heap
  counts : Counts
  mapObjToJSON : JsonCache
  logNum : Nat
  emitted : List Diag
  toJSONCalls : List Nat
deriving DecidableEq, Repr

inductive WErr where
  | typeError : WErr
  | outOfFuel : WErr
deriving DecidableEq, Repr

def initState (h : Heap) : WState :=
  { heap := h, counts := [], mapObjToJSON := [], logNum := 0, emitted := [], toJSONCalls := [] }

/-- The rate-limited `log` helper (lines 31-36): emit and count while
`logNum < logLimit`, silently drop afterwards. -/
def logMsg (logLimit : Nat) (s : WState) (m : String) : WState :=
  if s.logNum < logLimit then
    { s with emitted := s.emitted ++ [⟨true, m⟩], logNum := s.logNum + 1 }
  else s

/-- The direct `consola[level](...)` call of line 41: not rate limited. -/
def emitDirect (s : WState) (m : String) : WState :=
  { s with emitted := s.emitted ++ [⟨false, m⟩] }

def isPrimitive : JSValue → Bool
  | .undefv | .nullv | .bool _ | .num _ | .str _ => true
  | _ => false

/-- `proto !== Object.prototype && proto !== null && ownNames !== objectProtoOwnPropertyNames`. -/
def isForeignProto : Proto → Bool
  | .custom _ sameOwn => !sameOwn
  | _ => false

/-- `thing.constructor.name` for the non-POJO diagnostic. -/
def protoCtorName : Proto → String
  | .custom n _ => n
  | _ => "Object"

def objHasToJSON : Obj → Bool
  | .record _ _ (some _) _ => true
  | _ => false

/-- `getType(json) === 'String'` and the implicit coercion `JSON.parse`
performs on its argument: a primitive string yields itself, a boxed `String`
object yields its primitive content. -/
def jsStringOf (h : Heap) : JSValue → Option String
  | .str t => some t
  | .ref a =>
      match lookupObj h a with
      | some (.boxedStr t) => some t
      | _ => none
  | _ => none

/-- The host engine's `JSON.parse`, an external collaborator of the core.  It
is a parameter of the model, quantified over in every theorem: on success it
returns the parsed root value together with the heap extended by whatever
fresh nodes the parse allocated, on failure (`JSON.parse` throwing) `none`. -/
abbrev JsonParse := String → Heap → Option (JSValue × Heap)

/-- Field lookup `parent[key]` on a record (reading a missing field gives
`undefined`). -/
def fieldGet : List (String × JSValue) → String → JSValue
  | [], _ => .undefv
  | (k', v) :: rest, k => if k' = k then v else fieldGet rest k

def fieldSet : List (String × JSValue) → String → JSValue → List (String × JSValue)
  | [], k, v => [(k, v)]
  | (k', v') :: rest, k, v =>
      if k' = k then (k, v) :: rest else (k', v') :: fieldSet rest k v

/-- `parent[key]` where `parent` is a heap reference; only records have
modelled properties (the walk only ever passes records as parents). -/
def getProp (h : Heap) (a : Nat) (k : String) : JSValue :=
  match lookupObj h a with
  | some (.record _ fs _ _) => fieldGet fs k
  | _ => .undefv

/-- `es[i] = v` on an array's element list, extending with holes when `i` is
past the end (JavaScript index assignment). -/
def setElem (es : List (Option JSValue)) (i : Nat) (v : JSValue) : List (Option JSValue) :=
  if i < es.length then es.set i (some v)
  else es ++ List.replicate (i - es.length) none ++ [some v]

/-- `key` coerced to a property name: the root call passes `undefined`, which
JavaScript would coerce to the string "undefined" (unreachable together with a
defined parent). -/
def keyStr : Option String → String
  | some k => k
  | none => "undefined"

/-- The conversion-hook splice of lines 104-107:
`parent[key][index] = json` when `index` is defined, otherwise
`parent[key] = json`.  Property assignment on `undefined`/`null` throws a
`TypeError`; on other primitives it is a silent no-op (non-strict code); on a
non-record object it creates an expando property that nothing in the source
ever reads again, modelled as a no-op. -/
def spliceInto (parent : JSValue) (key : Option String) (index : Option Nat)
    (json : JSValue) (h : Heap) : Except WErr Heap :=
  match parent with
  | .undefv | .nullv => .error .typeError
  | .ref p =>
      match index with
      | none =>
          match lookupObj h p with
          | some (.record pr fs tj sk) =>
              .ok (setObj h p (.record pr (fieldSet fs (keyStr key) json) tj sk))
          | _ => .ok h
      | some i =>
          match getProp h p (keyStr key) with
          | .undefv | .nullv => .error .typeError
          | .ref b =>
              match lookupObj h b with
              | some (.arr es) => .ok (setObj h b (.arr (setElem es i json)))
              | some (.record pr fs tj sk) =>
                  .ok (setObj h b (.record pr (fieldSet fs (toString i) json) tj sk))
              | _ => .ok h
          | _ => .ok h
  | _ => .ok h

/-- Work items of the walk pass.  `one` is a call `walk(thing, parent, key,
index)`.  The others are the source's container iterations: `elems` is the
`forEach` over an array's indices 0..len-1 (length snapshotted, element reads
live, holes skipped); `members` is the iteration over `Array.from(set)`
(snapshot); `entries` is the iteration over `Array.from(map)` — each map entry
is a fresh two-element array in the source (it is counted once, can never
repeat, hence is never named; it is not modelled as a heap node, and its
element walk passes index 0 for the key and 1 for the value, as the array case
of the source does); `fields` is the `Object.keys(thing).forEach` over a
record's keys (key list snapshotted, values read live from the heap). -/
inductive Task where
  | one : JSValue → JSValue → Option String → Option Nat → Task
  | elems : Nat → Nat → Nat → JSValue → Option String → Task
  | members : List JSValue → JSValue → Option String → Task
  | entries : List (JSValue × JSValue) → JSValue → Option String → Task
  | fields : Nat → List String → Task

/-- The walk pass (lines 39-129 of the source), fuel-indexed: every recursive
call consumes one unit of fuel, and exhausting it reports `outOfFuel` (the
model's counterpart of stack exhaustion).  All other behaviour follows the
source line by line. -/
def walkGo (jp : JsonParse) (logLimit : Nat) : Nat → Task → WState → Except WErr WState
  | 0, _, _ => .error .outOfFuel
  | fuel + 1, t, s =>
    match t with
    | .fields _ [] => .ok s
    | .fields a (k :: rest) => do
        let s' ← walkGo jp logLimit fuel (.one (getProp s.heap a k) (.ref a) (some k) none) s
        walkGo jp logLimit fuel (.fields a rest) s'
    | .members [] _ _ => .ok s
    | .members (v :: rest) parent key => do
        let s' ← walkGo jp logLimit fuel (.one v parent key none) s
        walkGo jp logLimit fuel (.members rest parent key) s'
    | .entries [] _ _ => .ok s
    | .entries ((k, v) :: rest) parent key => do
        let s1 ← walkGo jp logLimit fuel (.one k parent key (some 0)) s
        let s2 ← walkGo jp logLimit fuel (.one v parent key (some 1)) s1
        walkGo jp logLimit fuel (.entries rest parent key) s2
    | .elems a len idx parent key =>
        if idx < len then
          match lookupObj s.heap a with
          | some (.arr es) =>
              match es[idx]? with
              | some (some v) => do
                  let s' ← walkGo jp logLimit fuel (.one v parent key (some idx)) s
                  walkGo jp logLimit fuel (.elems a len (idx + 1) parent key) s'
              | _ => walkGo jp logLimit fuel (.elems a len (idx + 1) parent key) s
          | _ => .ok s
        else .ok s
    | .one thing parent key index =>
      match thing with
      | .fn nm => .ok (emitDirect s ("Cannot stringify a function " ++ nm))
      | _ =>
        if countsHas s.counts thing then
          .ok { s with counts := countsSet s.counts thing (bumpLookup s.counts thing) }
        else
          let s1 := { s with counts := countsSet s.counts thing (some 1) }
          if isPrimitive thing then .ok s1
          else
            match thing with
            | .ref a =>
              match lookupObj s1.heap a with
              | none => .ok s1
              | some (.boxedNum _) | some (.boxedStr _) | some (.boxedBool _)
              | some (.date _) | some (.regexp _) => .ok s1
              | some (.arr es) => walkGo jp logLimit fuel (.elems a es.length 0 parent key) s1
              | some (.set es) => walkGo jp logLimit fuel (.members es parent key) s1
              | some (.jsmap en) => walkGo jp logLimit fuel (.entries en parent key) s1
              | some (.record pr fs tj sk) =>
                match tj with
                | some jret =>
                    let s2 := { s1 with counts := countsDel s1.counts thing }
                    match cacheGet s2.mapObjToJSON a with
                    | some json =>
                        let s3 := { s2 with counts := countsSet s2.counts json (bumpLookup s2.counts json) }
                        (spliceInto parent key index json s3.heap).map
                          (fun h' => { s3 with heap := h' })
                    | none =>
                        let s3 := { s2 with toJSONCalls := s2.toJSONCalls ++ [a] }
                        let js : JSValue × WState :=
                          match jsStringOf s3.heap jret with
                          | some txt =>
                              match jp txt s3.heap with
                              | some (v, h') => (v, { s3 with heap := h' })
                              | none => (.ref a, s3)
                          | none => (jret, s3)
                        let s4 := { js.2 with mapObjToJSON := cacheSet js.2.mapObjToJSON a js.1 }
                        let s5 := { s4 with counts := countsSet s4.counts js.1 (some 1) }
                        (spliceInto parent key index js.1 s5.heap).map
                          (fun h' => { s5 with heap := h' })
                | none =>
                    if isForeignProto pr then
                      -- the inner `typeof thing.toJSON !== "function"` guard of
                      -- line 118 is vacuously true here: a truthy toJSON was
                      -- already consumed by the branch above
                      .ok (logMsg logLimit s1
                        ("Cannot stringify arbitrary non-POJOs " ++ protoCtorName pr))
                    else if !sk.isEmpty then
                      .ok (logMsg logLimit s1
                        ("Cannot stringify POJOs with symbolic keys " ++ String.intercalate "," sk))
                    else
                      walkGo jp logLimit fuel (.fields a (fs.map Prod.fst)) s1
            | _ => .ok s1

/-- `walk(value, undefined, undefined, undefined)` from a fresh per-call
state (line 131). -/
def walkTop (jp : JsonParse) (logLimit fuel : Nat) (h : Heap) (v : JSValue) :
    Except WErr WState :=
  walkGo jp logLimit fuel (.one v .undefv none none) (initState h)

/-! ### Name assignment (lines 133-139 and 261-270) -/

/-- The identifier alphabet `chars` (54 characters). -/
def charsList : List Char :=
  "abcdefghijklmnopqrstuvwxyzABCDEFGHIJKLMNOPQRSTUVWXYZ_$".toList

/-- The reserved words of the `reserved` regular expression (line 4). -/
def reservedList : List String :=
  ["do", "if", "in", "for", "int", "let", "new", "try", "var", "byte", "case",
   "char", "else", "enum", "goto", "long", "this", "void", "with", "await",
   "break", "catch", "class", "const", "final", "float", "short", "super",
   "throw", "while", "yield", "delete", "double", "export", "import", "native",
   "return", "switch", "throws", "typeof", "boolean", "default", "extends",
   "finally", "package", "private", "abstract", "continue", "debugger",
   "function", "volatile", "interface", "protected", "transient", "implements",
   "instanceof", "synchronized"]

/-- The do-while loop of `getName`.  The source iterates
`num = ~~(num / chars.length) - 1` until it drops below zero; the argument
strictly decreases at every step, so `n + 1` units of fuel always suffice,
making the recursion structural. -/
def getNameCore : Nat → Nat → String
  | 0, _ => ""
  | fuel + 1, n =>
      let c := (charsList.getD (n % 54) 'a').toString
      if n < 54 then c else getNameCore fuel (n / 54 - 1) ++ c

def getName (n : Nat) : String :=
  let nm := getNameCore (n + 1) n
  if reservedList.contains nm then nm ++ "0" else nm

/-- A stable insertion step: `x` is placed after every already-placed entry
whose count is at least as large.  Folding it over the filtered entries
models the host's stable `sort((a, b) => b[1] - a[1])`: descending by count,
ties kept in first-encounter (insertion) order. -/
def insertByCount : List (JSValue × Nat) → JSValue × Nat → List (JSValue × Nat)
  | [], x => [x]
  | y :: ys, x => if x.2 > y.2 then x :: y :: ys else y :: insertByCount ys x

def sortDesc (l : List (JSValue × Nat)) : List (JSValue × Nat) :=
  l.foldl insertByCount []

abbrev Names := List (JSValue × String)

def namesGet : Names → JSValue → Option String
  | [], _ => none
  | (k', n) :: rest, k => if k' = k then some n else namesGet rest k

/-- Lines 133-139: filter the count table to entries counted more than once
(`NaN > 1` is false), sort stably by descending count, and assign short
identifiers in that order. -/
def buildNames (counts : Counts) : Names :=
  let entries := counts.filterMap (fun p =>
    match p.2 with
    | some n => if 1 < n then some (p.1, n) else none
    | none => none)
  (sortDesc entries).enum.map (fun q => (q.2.1, getName q.1))

/-! ### String rendering (lines 276-333), at the UTF-16 code-unit level -/

/-- Code units of an ASCII-only Lean string. -/
def strU (s : String) : List Nat := s.data.map Char.toNat

/-- The `escaped` character table (lines 5-18) as an association list keyed
by code unit, the replacement texts as code-unit lists (92 is the
backslash): `<` `>` `/` `\` and backspace, form-feed, newline,
carriage-return, tab, nul, and the separators U+2028/U+2029. -/
def escTable : List (Nat × List Nat) :=
  [(60, [92, 117, 48, 48, 51, 67]),
   (62, [92, 117, 48, 48, 51, 69]),
   (47, [92, 117, 48, 48, 50, 70]),
   (92, [92, 92]),
   (8, [92, 98]),
   (12, [92, 102]),
   (10, [92, 110]),
   (13, [92, 114]),
   (9, [92, 116]),
   (0, [92, 48]),
   (8232, [92, 117, 50, 48, 50, 56]),
   (8233, [92, 117, 50, 48, 50, 57])]

/-- `escaped[char]` lookup, at the code-unit level. -/
def escapedU (c : Nat) : Option (List Nat) :=
  (escTable.find? (fun p => p.1 = c)).map Prod.snd

/-- The code unit of the uppercase hexadecimal digit of `k % 16`
(the units of `0123456789ABCDEF`). -/
def hexDigitUpper (k : Nat) : Nat :=
  [48, 49, 50, 51, 52, 53, 54, 55, 56, 57, 65, 66, 67, 68, 69, 70].getD (k % 16) 48

def hexDigitLowerChar (k : Nat) : Char :=
  "0123456789abcdef".toList.getD (k % 16) '0'

/-- `code.toString(16).toUpperCase()` for a code unit in the surrogate range
(always exactly four hex digits there), prefixed by `\u` (units 92, 117). -/
def hexEscU (c : Nat) : List Nat :=
  92 :: 117 :: [hexDigitUpper (c / 4096), hexDigitUpper (c / 256),
                hexDigitUpper (c / 16), hexDigitUpper c]

def isHighSurrogate (c : Nat) : Bool := 55296 ≤ c && c ≤ 56319

def isLowSurrogate (c : Nat) : Bool := 56320 ≤ c && c ≤ 57343

def isSurrogate (c : Nat) : Bool := 55296 ≤ c && c ≤ 57343

/-- The body of the character loop of `stringifyString` (lines 308-329):
double quotes are escaped, table characters are replaced by their escapes, a
high surrogate followed by a low surrogate is copied as a pair, a lone
surrogate is escaped to uppercase `\uXXXX` hex, and every other code unit is
copied unchanged.  (`str.charCodeAt(i + 1)` past the end is `NaN`, which
fails the low-surrogate range test, so the final lone unit is escaped.) -/
def ssBody : List Nat → List Nat
  | [] => []
  | [c] =>
      -- last unit: `str.charCodeAt(i + 1)` is `NaN`, so a trailing surrogate
      -- is lone and is escaped
      if c = 34 then [92, 34]
      else
        match escapedU c with
        | some e => e
        | none => if isSurrogate c then hexEscU c else [c]
  | c :: next :: rest' =>
      if c = 34 then [92, 34] ++ ssBody (next :: rest')
      else
        match escapedU c with
        | some e => e ++ ssBody (next :: rest')
        | none =>
            if isSurrogate c then
              if c ≤ 56319 && isLowSurrogate next then c :: next :: ssBody rest'
              else hexEscU c ++ ssBody (next :: rest')
            else c :: ssBody (next :: rest')

/-- `stringifyString` at the code-unit level: the loop body wrapped in double
quotes. -/
def stringifyStringUnits (u : List Nat) : List Nat :=
  34 :: ssBody u ++ [34]

/-- UTF-16 encoding of a Lean string (Lean chars are Unicode scalar values;
an astral scalar becomes a high/low surrogate pair). -/
def charUnits (c : Char) : List Nat :=
  let n := c.toNat
  if n < 65536 then [n]
  else [55296 + (n - 65536) / 1024, 56320 + (n - 65536) % 1024]

def encodeUnits (s : String) : List Nat := s.data.flatMap charUnits

/-- Total UTF-16 decoding back to a Lean string; a well-paired sequence (which
`stringifyStringUnits` always produces on encoded input) decodes exactly, a
lone surrogate falls back to the replacement character. -/
def decodeUnits : List Nat → List Char
  | [] => []
  | [c] => if isSurrogate c then [Char.ofNat 65533] else [Char.ofNat c]
  | c :: n :: rest' =>
      if isHighSurrogate c && isLowSurrogate n then
        Char.ofNat (65536 + (c - 55296) * 1024 + (n - 56320)) :: decodeUnits rest'
      else if isSurrogate c then Char.ofNat 65533 :: decodeUnits (n :: rest')
      else Char.ofNat c :: decodeUnits (n :: rest')

def stringifyString (s : String) : String :=
  ⟨decodeUnits (stringifyStringUnits (encodeUnits s))⟩

/-- `stringifyPrimitive` (lines 276-283).  Numbers are modelled as integers,
for which `String(thing)` is plain decimal: the `-0` test and the leading
`0.` strip never fire on an integer, and `Int` has no negative zero. -/
def stringifyPrimitive : JSValue → String
  | .str s => stringifyString s
  | .undefv => "void 0"
  | .num n => toString n
  | .bool b => if b then "true" else "false"
  | .nullv => "null"
  | _ => ""

/-! ### Key quoting (lines 289-303) -/

/-- The identifier shape `/^[_$a-zA-Z][_$a-zA-Z0-9]*$/`. -/
def isIdentStart (c : Char) : Bool := c = '_' || c = '$' || c.isAlpha

def isIdentChar (c : Char) : Bool := isIdentStart c || c.isDigit

def isIdentifierName (s : String) : Bool :=
  match s.data with
  | [] => false
  | c :: rest => isIdentStart c && rest.all isIdentChar

/-- Modelled from the spec: the host engine's `JSON.stringify` on a string
value (an external collaborator), used by `safeKey`/`safeProp` for keys that
are not identifier-shaped — double quotes around the text with `"`, `\` and
control characters escaped. -/
def jsonQuoteChar (c : Char) : String :=
  if c = '"' then "\\\""
  else if c = '\\' then "\\\\"
  else if c = '\x08' then "\\b"
  else if c = '\x0C' then "\\f"
  else if c = '\n' then "\\n"
  else if c = '\r' then "\\r"
  else if c = '\t' then "\\t"
  else if c.toNat < 32 then
    "\\u00" ++ (hexDigitLowerChar (c.toNat / 16)).toString ++ (hexDigitLowerChar c.toNat).toString
  else c.toString

def jsonQuote (s : String) : String :=
  "\"" ++ String.join (s.data.map jsonQuoteChar) ++ "\""

/-- The `unsafeChars` regular expression: `[<>\b\f\n\r\t\0  ]`. -/
def isUnsafeChar (c : Char) : Bool :=
  c = '<' || c = '>' || c = '\x08' || c = '\x0C' || c = '\n' || c = '\r' ||
  c = '\t' || c = '\x00' || c.toNat = 8232 || c.toNat = 8233

/-- `escapeUnsafeChars`: replace every `unsafeChars` match through the
`escaped` table (every such character has a table entry). -/
def escapeUnsafeChars (s : String) : String :=
  String.join (s.data.map (fun c =>
    if isUnsafeChar c then ⟨decodeUnits ((escapedU c.toNat).getD [c.toNat])⟩
    else c.toString))

def safeKey (k : String) : String :=
  if isIdentifierName k then k else escapeUnsafeChars (jsonQuote k)

def safeProp (k : String) : String :=
  if isIdentifierName k then "." ++ k
  else "[" ++ escapeUnsafeChars (jsonQuote k) ++ "]"

/-! ### The emitter `stringify` (lines 141-194) -/

/-- `stringify(thing)`, fuel-indexed (every recursive call consumes one unit;
in the source the `names` short-circuit bounds the recursion on cyclic
graphs).  The heap argument changes only in the toJSON re-parse, where the
engine's `JSON.parse` may have allocated fresh nodes reachable from its
result.  A callable value reaches the default branch of the source's switch
(no `Function` case): it has no `toJSON`, a non-null prototype and no
enumerable own keys, so line 192 renders it as an empty record literal. -/
def stringify (jp : JsonParse) (names : Names) : Nat → Heap → JSValue → Option String
  | 0, _, _ => none
  | fuel + 1, h, thing =>
    match namesGet names thing with
    | some nm => some nm
    | none =>
      if isPrimitive thing then some (stringifyPrimitive thing)
      else
        match thing with
        | .fn _ => some (lb ++ rb)
        | .ref a =>
          match lookupObj h a with
          | none => some "void 0"
          | some (.boxedNum n) =>
              (stringify jp names fuel h (.num n)).map (fun t => "Object(" ++ t ++ ")")
          | some (.boxedStr sv) =>
              (stringify jp names fuel h (.str sv)).map (fun t => "Object(" ++ t ++ ")")
          | some (.boxedBool b) =>
              (stringify jp names fuel h (.bool b)).map (fun t => "Object(" ++ t ++ ")")
          | some (.regexp txt) => some txt
          | some (.date t) => some ("new Date(" ++ toString t ++ ")")
          | some (.arr es) => do
              let members ← es.mapM (fun e =>
                match e with
                | some v => stringify jp names fuel h v
                | none => some "")
              let tail := match es.getLast? with
                | some none => ","
                | _ => ""
              pure ("[" ++ String.intercalate "," members ++ tail ++ "]")
          | some (.set es) => do
              let ms ← es.mapM (fun v => stringify jp names fuel h v)
              pure ("new Set([" ++ String.intercalate "," ms ++ "])")
          | some (.jsmap en) => do
              let ps ← en.mapM (fun e => do
                let sk ← stringify jp names fuel h e.1
                let sv ← stringify jp names fuel h e.2
                pure ("[" ++ sk ++ "," ++ sv ++ "]"))
              pure ("new Map([" ++ String.intercalate "," ps ++ "])")
          | some (.record pr fs tj _) =>
            match tj with
            | some jret =>
                -- lines 174-182: `stringify` invokes `toJSON` again and
                -- re-attempts the parse; on a parse failure `json` keeps the
                -- unparsed toJSON result (unlike the walk, which falls back
                -- to the original node)
                match jsStringOf h jret with
                | some txt =>
                    match jp txt h with
                    | some (v, h') => stringify jp names fuel h' v
                    | none => stringify jp names fuel h jret
                | none => stringify jp names fuel h jret
            | none =>
              if pr = .nullProto then
                if fs.isEmpty then some "Object.create(null)"
                else do
                  let vs ← fs.mapM (fun f =>
                    (stringify jp names fuel h f.2).map (fun sv =>
                      safeKey f.1 ++ ":" ++ lb ++ "writable:true,enumerable:true,value:" ++ sv ++ rb))
                  pure ("Object.create(null," ++ lb ++ String.intercalate "," vs ++ rb ++ ")")
              else do
                let vs ← fs.mapM (fun f =>
                  (stringify jp names fuel h f.2).map (fun sv => safeKey f.1 ++ ":" ++ sv))
                pure (lb ++ String.intercalate "," vs ++ rb)
        | _ => some (lb ++ rb)

/-! ### The wrapper (lines 198-258) -/

/-- One iteration of `names.forEach`: the shell value pushed to `values` and
the population statements pushed to `statements` for a named `thing`. -/
def wrapperOne (jp : JsonParse) (names : Names) (fuel : Nat) (h : Heap)
    (thing : JSValue) (name : String) : Option (String × List String) :=
  if isPrimitive thing then some (stringifyPrimitive thing, [])
  else
    match thing with
    | .ref a =>
      match lookupObj h a with
      | some (.boxedNum n) =>
          (stringify jp names fuel h (.num n)).map (fun t => ("Object(" ++ t ++ ")", []))
      | some (.boxedStr sv) =>
          (stringify jp names fuel h (.str sv)).map (fun t => ("Object(" ++ t ++ ")", []))
      | some (.boxedBool b) =>
          (stringify jp names fuel h (.bool b)).map (fun t => ("Object(" ++ t ++ ")", []))
      | some (.regexp txt) => some (txt, [])
      | some (.date t) => some ("new Date(" ++ toString t ++ ")", [])
      | some (.arr es) => do
          let sts ← (es.enum.filterMap (fun q => q.2.map (fun v => (q.1, v)))).mapM
            (fun q => (stringify jp names fuel h q.2).map
              (fun sv => name ++ "[" ++ toString q.1 ++ "]=" ++ sv))
          pure ("Array(" ++ toString es.length ++ ")", sts)
      | some (.set es) => do
          let adds ← es.mapM (fun v =>
            (stringify jp names fuel h v).map (fun sv => "add(" ++ sv ++ ")"))
          pure ("new Set", [name ++ "." ++ String.intercalate "." adds])
      | some (.jsmap en) => do
          let sets ← en.mapM (fun e => do
            let sk ← stringify jp names fuel h e.1
            let sv ← stringify jp names fuel h e.2
            pure ("set(" ++ sk ++ ", " ++ sv ++ ")"))
          pure ("new Map", [name ++ "." ++ String.intercalate "." sets])
      | some (.record pr fs _ _) => do
          let sts ← fs.mapM (fun f =>
            (stringify jp names fuel h f.2).map
              (fun sv => name ++ safeProp f.1 ++ "=" ++ sv))
          pure (if pr = .nullProto then "Object.create(null)" else lb ++ rb, sts)
      | none => some (lb ++ rb, [])
    | _ => some (lb ++ rb, [])

/-- The `names.forEach` loop: parameters in name-table order, shell values and
statements accumulated in the same order. -/
def wrapperEntries (jp : JsonParse) (names : Names) (fuel : Nat) (h : Heap) :
    Names → Option (List String × List String × List String)
  | [] => some ([], [], [])
  | (thing, name) :: rest => do
      let (v, sts) ← wrapperOne jp names fuel h thing name
      let (ps, vs, ss) ← wrapperEntries jp names fuel h rest
      pure (name :: ps, v :: vs, sts ++ ss)

/-! ### The top-level `devalue` (lines 25-259) -/

/-- `devalue(value)`: run the walk, assign names, stringify the main
expression, and wrap it in the self-invoking binding form when any name was
assigned.  `logLimit` is the environment-configured diagnostic cap (default
99); `jp` is the host engine's `JSON.parse`.  The result is the emitted
expression text, or `typeError` when the conversion-hook splice assigned
through an undefined parent, or `outOfFuel` when the fuel bound (the model's
stack budget) is exhausted. -/
def devalue (jp : JsonParse) (logLimit fuel : Nat) (h : Heap) (v : JSValue) :
    Except WErr String := do
  let s ← walkTop jp logLimit fuel h v
  let names := buildNames s.counts
  match stringify jp names fuel s.heap v with
  | none => .error .outOfFuel
  | some str =>
    if names.isEmpty then .ok str
    else
      match wrapperEntries jp names fuel s.heap names with
      | none => .error .outOfFuel
      | some (params, values, statements) =>
          .ok ("(function(" ++ String.intercalate "," params ++ ")" ++ lb ++
            String.intercalate ";" (statements ++ ["return " ++ str]) ++ rb ++
            "(" ++ String.intercalate "," values ++ "))")

/-- The diagnostics the walk pass sends to the `consola` sink, in order. -/
def devalueDiagnostics (jp : JsonParse) (logLimit fuel : Nat) (h : Heap) (v : JSValue) :
    Except WErr (List Diag) :=
  (walkTop jp logLimit fuel h v).map WState.emitted

/-- The reference-count table after the walk pass. -/
def devalueCounts (jp : JsonParse) (logLimit fuel : Nat) (h : Heap) (v : JSValue) :
    Except WErr Counts :=
  (walkTop jp logLimit fuel h v).map WState.counts

/-- The heap (the caller's value graph) after the walk pass. -/
def devalueFinalHeap (jp : JsonParse) (logLimit fuel : Nat) (h : Heap) (v : JSValue) :
    Except WErr Heap :=
  (walkTop jp logLimit fuel h v).map WState.heap

/-- The addresses whose `toJSON` method the walk invoked, in invocation
order. -/
def devalueToJSONCalls (jp : JsonParse) (logLimit fuel : Nat) (h : Heap) (v : JSValue) :
    Except WErr (List Nat) :=
  (walkTop jp logLimit fuel h v).map WState.toJSONCalls

/-- A `JSON.parse` that always throws — used to instantiate concrete runs
whose inputs never reach the parse. -/
def jpNone : JsonParse := fun _ _ => none

/-- `true` iff no object in the heap carries a `toJSON` member. -/
def heapNoToJSON (h : Heap) : Bool := h.all (fun p => !objHasToJSON p.2)

/-! ### Concrete inputs used by the claims -/

/-- `{a: 1, b: [1, 2, 3]}`. -/
def heapScenario : Heap :=
  [(0, .record .objectProto [("a", .num 1), ("b", .ref 1)] none []),
   (1, .arr [some (.num 1), some (.num 2), some (.num 3)])]

/-- A record whose `toJSON` returns `1`, used as the root value. -/
def heapRootToJSON : Heap := [(0, .record .objectProto [] (some (.num 1)) [])]

/-- `[f]` for a function `f`. -/
def heapFnArr : Heap := [(0, .arr [some (.fn "f")])]

/-- `{a: f}` for a function `f`. -/
def heapFnRec : Heap := [(0, .record .objectProto [("a", .fn "f")] none [])]

/-- An array of 100 function values. -/
def heapManyFns : Heap := [(0, .arr (List.replicate 100 (some (.fn "f"))))]

/-- `{p: o}` where `o.toJSON()` returns the array `["z"]` (node 2). -/
def heapToJSONChild : Heap :=
  [(0, .record .objectProto [("p", .ref 1)] none []),
   (1, .record .objectProto [] (some (.ref 2)) []),
   (2, .arr [some (.str "z")])]

/-- A record with a custom prototype `Foo` (no `toJSON`), one key `x`. -/
def heapCustomProto : Heap :=
  [(0, .record (.custom "Foo" false) [("x", .str "hello")] none [])]

/-- A mid-walk state in which node 0's `toJSON` has already been invoked and
cached as the primitive `5`, which is counted once; node 1 is a plain record
parent.  Used to exercise the repeated-encounter (cache hit) path. -/
def cachedState : WState :=
  { heap := [(0, .record .objectProto [] (some (.num 1)) []),
             (1, .record .objectProto [] none [])],
    counts := [(.num 5, some 1)],
    mapObjToJSON := [(0, .num 5)],
    logNum := 0,
    emitted := [],
    toJSONCalls := [0] }

/-! ### Code units relevant to claim C9 -/

/-- The raw code units the specification requires to be escaped in rendered
text: `< > / "` and backspace, form-feed, newline, carriage-return, tab, nul,
and the line/paragraph separators.  (The backslash is escaped too, but its
escape forms themselves contain backslashes, so it is treated by
`backslashOK` below instead.) -/
def bannedUnits : List Nat := [60, 62, 47, 34, 8, 12, 10, 13, 9, 0, 8232, 8233]

/-- The units allowed immediately after a backslash in rendered text: the
second unit of the escape forms `\\ \u \b \f \n \r \t \0 \"`. -/
def escapeContinuation (d : Nat) : Bool :=
  d = 92 || d = 117 || d = 98 || d = 102 || d = 110 || d = 114 ||
  d = 116 || d = 48 || d = 34

/-- A unit that may stand raw (unescaped) in a rendered string body: not one
of the characters the specification requires escaped, not a backslash, and
not a surrogate code unit. -/
def safeRaw (c : Nat) : Bool :=
  !(bannedUnits.contains c) && !isSurrogate c && !(c = 92)

/-- Scans a rendered string body: every unit is a safe raw character, the
second half of an adjacent high-low surrogate pair, or part of an escape
sequence started by a backslash.  In particular no double quote, angle
bracket, slash, listed control character, separator, lone backslash or lone
surrogate occurs outside an escape. -/
def bodyOK : List Nat → Bool
  | [] => true
  | [c] => safeRaw c
  | c :: d :: rest =>
      if c = 92 then escapeContinuation d && bodyOK rest
      else if isHighSurrogate c then isLowSurrogate d && bodyOK rest
      else safeRaw c && bodyOK (d :: rest)

/-- The code units of the uppercase hexadecimal digits `0-9 A-F`. -/
def upperHexUnits : List Nat :=
  [48, 49, 50, 51, 52, 53, 54, 55, 56, 57, 65, 66, 67, 68, 69, 70]

instance {ε α : Type} [DecidableEq ε] [DecidableEq α] : DecidableEq (Except ε α) := fun a b =>
  match a, b with
  | .ok x, .ok y =>
      if h : x = y then .isTrue (by rw [h]) else .isFalse (by simpa using h)
  | .error x, .error y =>
      if h : x = y then .isTrue (by rw [h]) else .isFalse (by simpa using h)
  | .ok _, .error _ => .isFalse (by simp)
  | .error _, .ok _ => .isFalse (by simp)

end Devalue

namespace Devalue

/-! ## Helper lemmas -/

theorem ebind_ok {α β : Type} {e : Except WErr α} {f : α → Except WErr β} {b : β} :
    e >>= f = .ok b ↔ ∃ a, e = .ok a ∧ f a = .ok b := by
  cases e <;> simp [Bind.bind, Except.bind]

theorem emap_ok {α β : Type} {e : Except WErr α} {f : α → β} {b : β} :
    Except.map f e = .ok b ↔ ∃ a, e = .ok a ∧ f a = b := by
  cases e <;> simp [Except.map]

theorem countsFind_none_not_mem {c : Counts} {k : JSValue}
    (h : countsFind c k = none) : ∀ p ∈ c, p.1 ≠ k := by
  induction c with
  | nil => simp
  | cons hd tl ih =>
      simp only [countsFind] at h
      split at h
      · exact absurd h (by simp)
      · rename_i hne
        intro p hp
        rcases List.mem_cons.mp hp with hq | hq
        · subst hq; exact hne
        · exact ih h p hq

theorem countsDel_set_self {c : Counts} {k : JSValue} {v : Count}
    (h : countsFind c k = none) : countsDel (countsSet c k v) k = c := by
  induction c with
  | nil => simp [countsSet, countsDel, List.filter]
  | cons hd tl ih =>
      simp only [countsFind] at h
      split at h
      · exact absurd h (by simp)
      · rename_i hne
        simp only [countsSet, countsDel] at *
        rw [if_neg hne]
        simp only [List.filter_cons]
        rw [if_pos (by simpa using hne)]
        congr 1
        exact ih h

theorem countsFind_set_self (c : Counts) (k : JSValue) (v : Count) :
    countsFind (countsSet c k v) k = some v := by
  induction c with
  | nil => simp [countsSet, countsFind]
  | cons hd tl ih =>
      simp only [countsSet]
      split
      · rename_i he; simp [countsFind]
      · rename_i hne; simp only [countsFind]; rw [if_neg hne]; exact ih

theorem cacheGet_set_self (m : JsonCache) (a : Nat) (j : JSValue) :
    cacheGet (cacheSet m a j) a = some j := by
  induction m with
  | nil => simp [cacheSet, cacheGet]
  | cons hd tl ih =>
      simp only [cacheSet]
      split
      · rename_i he; simp [cacheGet]
      · rename_i hne; simp only [cacheGet]; rw [if_neg hne]; exact ih

theorem cacheGet_set_isSome {m : JsonCache} {b : Nat} (a : Nat) (j : JSValue)
    (h : (cacheGet m b).isSome) : (cacheGet (cacheSet m a j) b).isSome := by
  induction m with
  | nil => simp [cacheGet] at h
  | cons hd tl ih =>
      simp only [cacheSet]
      split
      · rename_i he
        simp only [cacheGet] at h ⊢
        subst he
        split at h
        · rename_i hq; rw [if_pos hq]; simp
        · rename_i hq; rw [if_neg hq]; exact h
      · rename_i hne
        simp only [cacheGet] at h ⊢
        split at h
        · rename_i hq; rw [if_pos hq]; simp
        · rename_i hq; rw [if_neg hq]; exact ih h

theorem cappedLen_append (l l' : List Diag) :
    cappedLen (l ++ l') = cappedLen l + cappedLen l' := by
  simp [cappedLen, List.filter_append]

theorem cappedLen_direct (l : List Diag) (m : String) :
    cappedLen (l ++ [⟨false, m⟩]) = cappedLen l := by
  simp [cappedLen_append, cappedLen, List.filter]

theorem heapNoToJSON_lookup {h : Heap} {a : Nat} {o : Obj}
    (hnt : heapNoToJSON h = true) (hl : lookupObj h a = some o) :
    objHasToJSON o = false := by
  induction h with
  | nil => simp [lookupObj] at hl
  | cons hd tl ih =>
      simp only [heapNoToJSON, List.all_cons, Bool.and_eq_true] at hnt
      simp only [lookupObj] at hl
      split at hl
      · cases hl; simpa using hnt.1
      · exact ih (by simpa [heapNoToJSON] using hnt.2) hl

/-! ### The per-step invariant used for the diagnostic cap and the
toJSON-at-most-once property -/

/-- The walk never re-invokes `toJSON` on a cached node: the invocation list
is duplicate-free and every invoked address is cached. -/
def CallsOK (s : WState) : Prop :=
  s.toJSONCalls.Nodup ∧ ∀ a ∈ s.toJSONCalls, (cacheGet s.mapObjToJSON a).isSome

/-- What a successful walk step guarantees about the evolution of the
diagnostic counters and the toJSON cache. -/
structure StepInv (ll : Nat) (s s' : WState) : Prop where
  logNum_mono : s.logNum ≤ s'.logNum
  logNum_le : s'.logNum ≤ max s.logNum ll
  capped_eq : cappedLen s'.emitted + s.logNum = cappedLen s.emitted + s'.logNum
  cache_mono : ∀ a, (cacheGet s.mapObjToJSON a).isSome → (cacheGet s'.mapObjToJSON a).isSome
  calls_ok : CallsOK s → CallsOK s'

theorem StepInv.rfl {ll : Nat} {s : WState} : StepInv ll s s :=
  ⟨le_refl _, le_max_left _ _, by omega, fun _ h => h, fun h => h⟩

theorem StepInv.trans {ll : Nat} {s₁ s₂ s₃ : WState}
    (h1 : StepInv ll s₁ s₂) (h2 : StepInv ll s₂ s₃) : StepInv ll s₁ s₃ := by
  refine ⟨h1.logNum_mono.trans h2.logNum_mono, ?_, ?_, ?_, fun h => h2.calls_ok (h1.calls_ok h)⟩
  · have := h2.logNum_le
    have := h1.logNum_le
    omega
  · have := h1.capped_eq
    have := h2.capped_eq
    omega
  · intro a ha
    exact h2.cache_mono a (h1.cache_mono a ha)

/-- A step that only changes the heap and the count table. -/
theorem StepInv.of_quiet {ll : Nat} {s s' : WState}
    (h1 : s'.logNum = s.logNum) (h2 : s'.emitted = s.emitted)
    (h3 : s'.mapObjToJSON = s.mapObjToJSON) (h4 : s'.toJSONCalls = s.toJSONCalls) :
    StepInv ll s s' := by
  refine ⟨by omega, by simp [h1], by rw [h1, h2], fun a ha => by rwa [h3], fun h => ?_⟩
  unfold CallsOK at *
  rw [h3, h4]
  exact h

theorem StepInv.of_log {ll : Nat} {s : WState} (m : String) :
    StepInv ll s (logMsg ll s m) := by
  unfold logMsg
  split
  · rename_i hlt
    refine ⟨by simp, by simp; omega, ?_, fun a ha => ha, fun h => h⟩
    simp only [cappedLen_append, cappedLen, List.filter, List.length]
    simp [cappedLen]
    omega
  · exact StepInv.rfl

theorem StepInv.of_direct {ll : Nat} {s : WState} (m : String) :
    StepInv ll s (emitDirect s m) := by
  unfold emitDirect
  refine ⟨le_refl _, le_max_left _ _, ?_, fun a ha => ha, fun h => h⟩
  simp [cappedLen_direct]

/-- A fresh toJSON invocation: the address was not cached, it is appended to
the invocation list and added to the cache. -/
theorem StepInv.of_invoke {ll : Nat} {s s' : WState} {a : Nat} {j : JSValue}
    (hnone : cacheGet s.mapObjToJSON a = none)
    (h1 : s'.logNum = s.logNum) (h2 : s'.emitted = s.emitted)
    (h3 : s'.mapObjToJSON = cacheSet s.mapObjToJSON a j)
    (h4 : s'.toJSONCalls = s.toJSONCalls ++ [a]) : StepInv ll s s' := by
  refine ⟨by omega, by simp [h1], by rw [h1, h2], ?_, ?_⟩
  · intro b hb
    rw [h3]
    exact cacheGet_set_isSome a j hb
  · rintro ⟨hnd, hmem⟩
    have hana : a ∉ s.toJSONCalls := by
      intro hin
      have := hmem a hin
      rw [hnone] at this
      simp at this
    constructor
    · rw [h4]
      simpa [List.nodup_append] using ⟨hnd, hana⟩
    · intro b hb
      rw [h4] at hb
      rw [h3]
      rcases List.mem_append.mp hb with hb | hb
      · exact cacheGet_set_isSome a j (hmem b hb)
      · have : b = a := by simpa using hb
        subst this
        rw [cacheGet_set_self]
        simp

/-- A successful walk step satisfies the invariant: the rate-limited counter
never exceeds the cap it started under, capped emissions match the counter's
growth, the toJSON cache only grows, and invoked-once bookkeeping is
preserved. -/
theorem walkGo_stepInv (jp : JsonParse) (ll : Nat) :
    ∀ fuel t s s', walkGo jp ll fuel t s = .ok s' → StepInv ll s s' := by
  intro fuel
  induction fuel with
  | zero => intro t s s' hw; simp [walkGo] at hw
  | succ n ih =>
    intro t s s' hw
    cases t with
    | fields a ks =>
        cases ks with
        | nil => simp only [walkGo] at hw; cases hw; exact .rfl
        | cons k rest =>
            simp only [walkGo] at hw
            rw [ebind_ok] at hw
            obtain ⟨s1, h1, h2⟩ := hw
            exact (ih _ _ _ h1).trans (ih _ _ _ h2)
    | members vs parent key =>
        cases vs with
        | nil => simp only [walkGo] at hw; cases hw; exact .rfl
        | cons v rest =>
            simp only [walkGo] at hw
            rw [ebind_ok] at hw
            obtain ⟨s1, h1, h2⟩ := hw
            exact (ih _ _ _ h1).trans (ih _ _ _ h2)
    | entries es parent key =>
        cases es with
        | nil => simp only [walkGo] at hw; cases hw; exact .rfl
        | cons e rest =>
            obtain ⟨k, v⟩ := e
            simp only [walkGo] at hw
            rw [ebind_ok] at hw
            obtain ⟨s1, h1, hw⟩ := hw
            rw [ebind_ok] at hw
            obtain ⟨s2, h2, h3⟩ := hw
            exact ((ih _ _ _ h1).trans (ih _ _ _ h2)).trans (ih _ _ _ h3)
    | elems a len idx parent key =>
        simp only [walkGo] at hw
        split at hw
        · split at hw
          · split at hw
            · rw [ebind_ok] at hw
              obtain ⟨s1, h1, h2⟩ := hw
              exact (ih _ _ _ h1).trans (ih _ _ _ h2)
            · exact ih _ _ _ hw
          · cases hw; exact .rfl
        · cases hw; exact .rfl
    | one thing parent key index =>
        cases thing <;> simp only [walkGo] at hw
        case fn nm => cases hw; exact .of_direct _
        case undefv | nullv | bool b | num m | str t =>
          split at hw <;> [skip; simp only [isPrimitive, if_true] at hw] <;>
            cases hw <;> exact .of_quiet rfl rfl rfl rfl
        case ref a =>
          split at hw
          · cases hw; exact .of_quiet rfl rfl rfl rfl
          · simp only [isPrimitive, Bool.false_eq_true, if_false] at hw
            have hquiet : StepInv ll s { s with counts := countsSet s.counts (.ref a) (some 1) } :=
              .of_quiet rfl rfl rfl rfl
            split at hw
            · cases hw; exact hquiet
            · cases hw; exact hquiet
            · cases hw; exact hquiet
            · cases hw; exact hquiet
            · cases hw; exact hquiet
            · cases hw; exact hquiet
            · exact hquiet.trans (ih _ _ _ hw)
            · exact hquiet.trans (ih _ _ _ hw)
            · exact hquiet.trans (ih _ _ _ hw)
            · -- record case
              rename_i pr fs tj sk hrec
              split at hw
              · -- toJSON present
                rename_i jret htj
                split at hw
                · -- cache hit
                  rename_i json hcache
                  rw [emap_ok] at hw
                  obtain ⟨h', hs, hw⟩ := hw
                  cases hw
                  exact .of_quiet rfl rfl rfl rfl
                · -- fresh invocation
                  rename_i hcache
                  split at hw <;>
                  first
                  | (rw [emap_ok] at hw
                     obtain ⟨h', hs, hw⟩ := hw
                     cases hw
                     exact .of_invoke hcache rfl rfl rfl rfl)
                  | (split at hw <;>
                      (rw [emap_ok] at hw
                       obtain ⟨h', hs, hw⟩ := hw
                       cases hw
                       exact .of_invoke hcache rfl rfl rfl rfl))
              · -- no toJSON
                split at hw
                · cases hw
                  exact hquiet.trans (.of_log _)
                · split at hw
                  · cases hw
                    exact hquiet.trans (.of_log _)
                  · exact hquiet.trans (ih _ _ _ hw)

/-! ### The walk never throws and never mutates a toJSON-free heap -/

/-- Result contract of the walk on a toJSON-free graph: no `TypeError` (the
only genuine throw of the source), and on success the heap is unchanged. -/
def NTRes (h : Heap) : Except WErr WState → Prop
  | .error e => e ≠ .typeError
  | .ok s' => s'.heap = h

theorem NTRes_bind {h : Heap} {e : Except WErr WState} {f : WState → Except WErr WState}
    (he : NTRes h e) (hf : ∀ s1, e = .ok s1 → NTRes h (f s1)) : NTRes h (e >>= f) := by
  cases e with
  | error e => exact he
  | ok a => exact hf a rfl

theorem logMsg_heap (ll : Nat) (s : WState) (m : String) : (logMsg ll s m).heap = s.heap := by
  unfold logMsg
  split
  · rfl
  · rfl

/-- On a heap with no toJSON member anywhere, the walk can only splice
nothing: it never raises the splice `TypeError` and leaves the caller's
value graph untouched. -/
theorem walkGo_noToJSON (jp : JsonParse) (ll : Nat) :
    ∀ fuel t s, heapNoToJSON s.heap = true → NTRes s.heap (walkGo jp ll fuel t s) := by
  intro fuel
  induction fuel with
  | zero => intro t s _; simp [walkGo, NTRes]
  | succ n ih =>
    intro t s hnt
    cases t with
    | fields a ks =>
        cases ks with
        | nil => simp only [walkGo]; exact rfl
        | cons k rest =>
            simp only [walkGo]
            refine NTRes_bind (ih _ _ hnt) (fun s1 h1 => ?_)
            have hh : s1.heap = s.heap := by
              have := ih (.one (getProp s.heap a k) (.ref a) (some k) none) s hnt
              rw [h1] at this
              exact this
            have hnt1 : heapNoToJSON s1.heap = true := by rw [hh]; exact hnt
            have := ih (.fields a rest) s1 hnt1
            rwa [hh] at this
    | members vs parent key =>
        cases vs with
        | nil => simp only [walkGo]; exact rfl
        | cons v rest =>
            simp only [walkGo]
            refine NTRes_bind (ih _ _ hnt) (fun s1 h1 => ?_)
            have hh : s1.heap = s.heap := by
              have := ih (.one v parent key none) s hnt
              rw [h1] at this
              exact this
            have hnt1 : heapNoToJSON s1.heap = true := by rw [hh]; exact hnt
            have := ih (.members rest parent key) s1 hnt1
            rwa [hh] at this
    | entries es parent key =>
        cases es with
        | nil => simp only [walkGo]; exact rfl
        | cons e rest =>
            obtain ⟨k, v⟩ := e
            simp only [walkGo]
            refine NTRes_bind (ih _ _ hnt) (fun s1 h1 => ?_)
            have hh : s1.heap = s.heap := by
              have := ih (.one k parent key (some 0)) s hnt
              rw [h1] at this
              exact this
            have hnt1 : heapNoToJSON s1.heap = true := by rw [hh]; exact hnt
            refine NTRes_bind (by have := ih (.one v parent key (some 1)) s1 hnt1; rwa [hh] at this)
              (fun s2 h2 => ?_)
            have hh2 : s2.heap = s.heap := by
              have := ih (.one v parent key (some 1)) s1 hnt1
              rw [h2] at this
              rw [← hh]
              exact this
            have hnt2 : heapNoToJSON s2.heap = true := by rw [hh2]; exact hnt
            have := ih (.entries rest parent key) s2 hnt2
            rwa [hh2] at this
    | elems a len idx parent key =>
        simp only [walkGo]
        split
        · split
          · split
            · refine NTRes_bind (ih _ _ hnt) (fun s1 h1 => ?_)
              have hh : s1.heap = s.heap := by
                rename_i v _
                have := ih (.one v parent key (some idx)) s hnt
                rw [h1] at this
                exact this
              have hnt1 : heapNoToJSON s1.heap = true := by rw [hh]; exact hnt
              have := ih (.elems a len (idx + 1) parent key) s1 hnt1
              rwa [hh] at this
            · exact ih _ _ hnt
          · exact rfl
        · exact rfl
    | one thing parent key index =>
        cases thing <;> simp only [walkGo]
        case fn nm => exact rfl
        case undefv | nullv | bool b | num m | str t =>
          split
          · exact rfl
          · simp only [isPrimitive, if_true]; exact rfl
        case ref a =>
          split
          · exact rfl
          · simp only [isPrimitive, Bool.false_eq_true, if_false]
            split
            · exact rfl
            · exact rfl
            · exact rfl
            · exact rfl
            · exact rfl
            · exact rfl
            · exact ih _ _ hnt
            · exact ih _ _ hnt
            · exact ih _ _ hnt
            · -- record: a toJSON member contradicts the hypothesis, the
              -- remaining branches only log and leave the heap untouched
              rename_i hrec
              split
              · exact Bool.noConfusion (heapNoToJSON_lookup hnt hrec)
              · split
                · exact logMsg_heap ll _ _
                · split
                  · exact logMsg_heap ll _ _
                  · exact ih _ _ hnt

/-! ### String-escaping lemmas (claim C9) -/

theorem surrogate_ne_92 {c : Nat} (h : isSurrogate c = true) : ¬ c = 92 := by
  simp only [isSurrogate, Bool.and_eq_true, decide_eq_true_eq] at h
  omega

theorem high_of_surrogate {c : Nat} (h : isSurrogate c = false) :
    isHighSurrogate c = false := by
  simp only [isSurrogate, isHighSurrogate, Bool.and_eq_true, decide_eq_true_eq] at *
  simp only [Bool.and_eq_false_iff, decide_eq_false_iff_not] at *
  omega

theorem bodyOK_two {c : Nat} (d : Nat) (rest : List Nat) :
    bodyOK (c :: d :: rest) =
      (if c = 92 then escapeContinuation d && bodyOK rest
       else if isHighSurrogate c then isLowSurrogate d && bodyOK rest
       else safeRaw c && bodyOK (d :: rest)) := by
  rfl

theorem bodyOK_cons_safe {c : Nat} (h : safeRaw c = true) (l : List Nat) :
    bodyOK (c :: l) = bodyOK l := by
  have h' := h
  simp only [safeRaw, Bool.and_eq_true, Bool.not_eq_true'] at h'
  obtain ⟨⟨-, hsurr⟩, h92⟩ := h'
  have h92' : ¬ c = 92 := by simpa using h92
  cases l with
  | nil => simpa [bodyOK] using h
  | cons d r =>
      rw [bodyOK_two, if_neg h92', high_of_surrogate hsurr]
      simp [h]

theorem bodyOK_pair {c d : Nat} (hc : isHighSurrogate c = true)
    (hd : isLowSurrogate d = true) (l : List Nat) :
    bodyOK (c :: d :: l) = bodyOK l := by
  have h92 : ¬ c = 92 := by
    simp only [isHighSurrogate, Bool.and_eq_true, decide_eq_true_eq] at hc
    omega
  rw [bodyOK_two, if_neg h92, hc]
  simp [hd]

theorem bodyOK_append : ∀ n e, e.length ≤ n → bodyOK e = true →
    ∀ l, bodyOK (e ++ l) = bodyOK l := by
  intro n
  induction n with
  | zero =>
      intro e he h l
      have : e = [] := List.length_eq_zero.mp (Nat.le_zero.mp he)
      subst this
      simp
  | succ n ih =>
      intro e he h l
      match e with
      | [] => simp
      | [c] =>
          have hs : safeRaw c = true := h
          simpa using bodyOK_cons_safe hs l
      | c :: d :: rest =>
          have hlen : rest.length ≤ n := by simp at he; omega
          have hlen1 : (d :: rest).length ≤ n := by simp at he ⊢; omega
          by_cases hc : c = 92
          · subst hc
            rw [bodyOK_two, if_pos rfl, Bool.and_eq_true] at h
            obtain ⟨hd, hr⟩ := h
            show bodyOK (92 :: d :: (rest ++ l)) = bodyOK l
            rw [bodyOK_two, if_pos rfl, hd, Bool.true_and]
            exact ih rest hlen hr l
          · by_cases hh : isHighSurrogate c = true
            · rw [bodyOK_two, if_neg hc, if_pos hh, Bool.and_eq_true] at h
              obtain ⟨hd, hr⟩ := h
              show bodyOK (c :: d :: (rest ++ l)) = bodyOK l
              rw [bodyOK_two, if_neg hc, if_pos hh, hd, Bool.true_and]
              exact ih rest hlen hr l
            · rw [bodyOK_two, if_neg hc, if_neg hh, Bool.and_eq_true] at h
              obtain ⟨hs, hr⟩ := h
              show bodyOK (c :: ((d :: rest) ++ l)) = bodyOK l
              rw [bodyOK_cons_safe hs]
              exact ih _ hlen1 hr l

/-- `bodyOK_append` at the natural fuel. -/
theorem bodyOK_append' (e : List Nat) (h : bodyOK e = true) (l : List Nat) :
    bodyOK (e ++ l) = bodyOK l :=
  bodyOK_append e.length e le_rfl h l

theorem escapedU_mem {c : Nat} {e : List Nat} (h : escapedU c = some e) :
    (c, e) ∈ escTable := by
  simp only [escapedU, Option.map_eq_some'] at h
  obtain ⟨p, hp, hpe⟩ := h
  have hmem := List.mem_of_find?_eq_some hp
  have hkey := List.find?_some hp
  simp only [decide_eq_true_eq] at hkey
  obtain ⟨p1, p2⟩ := p
  simp only at hkey hpe
  subst hkey
  subst hpe
  exact hmem

theorem bodyOK_escapedU {c : Nat} {e : List Nat} (h : escapedU c = some e) :
    bodyOK e = true := by
  have hall : ∀ p ∈ escTable, bodyOK p.2 = true := by decide
  exact hall _ (escapedU_mem h)

theorem safeRaw_hexDigitUpper (k : Nat) : safeRaw (hexDigitUpper k) = true := by
  have h16 : k % 16 < 16 := Nat.mod_lt _ (by norm_num)
  have hall : ∀ j < 16,
      safeRaw ([48, 49, 50, 51, 52, 53, 54, 55, 56, 57, 65, 66, 67, 68, 69, 70].getD j 48) = true := by
    decide
  exact hall _ h16

theorem mem_upperHex_hexDigitUpper (k : Nat) : hexDigitUpper k ∈ upperHexUnits := by
  have h16 : k % 16 < 16 := Nat.mod_lt _ (by norm_num)
  have hall : ∀ j < 16,
      ([48, 49, 50, 51, 52, 53, 54, 55, 56, 57, 65, 66, 67, 68, 69, 70].getD j 48) ∈ upperHexUnits := by
    decide
  exact hall _ h16

theorem bodyOK_hexEscU (c : Nat) : bodyOK (hexEscU c) = true := by
  show bodyOK (92 :: 117 :: _) = true
  rw [bodyOK_two, if_pos rfl]
  rw [bodyOK_cons_safe (safeRaw_hexDigitUpper _), bodyOK_cons_safe (safeRaw_hexDigitUpper _),
    bodyOK_cons_safe (safeRaw_hexDigitUpper _), bodyOK_cons_safe (safeRaw_hexDigitUpper _)]
  decide

theorem escapedU_surrogate_none {c : Nat} (h : isSurrogate c = true) :
    escapedU c = none := by
  cases hf : escapedU c with
  | none => rfl
  | some e =>
      have hall : ∀ p ∈ escTable, p.1 < 55296 := by decide
      have hlt := hall _ (escapedU_mem hf)
      simp only [isSurrogate, Bool.and_eq_true, decide_eq_true_eq] at h
      simp only at hlt
      omega

theorem escapedU_none_safe {c : Nat} (h : escapedU c = none) (h34 : ¬ c = 34)
    (hsurr : isSurrogate c = false) : safeRaw c = true := by
  simp only [escapedU, Option.map_eq_none'] at h
  rw [List.find?_eq_none] at h
  simp only [decide_eq_true_eq] at h
  have h92 : ¬ c = 92 := fun hc => h (92, [92, 92]) (by decide) (by omega)
  simp only [safeRaw, Bool.and_eq_true, Bool.not_eq_true']
  refine ⟨⟨?_, hsurr⟩, by simpa using h92⟩
  have hmemF : ¬ c ∈ bannedUnits := by
    intro hmem
    have hkeys : ∀ k ∈ bannedUnits, k = 34 ∨ (escTable.map Prod.fst).contains k = true := by
      decide
    rcases hkeys c hmem with h' | h'
    · exact h34 h'
    · have : c ∈ escTable.map Prod.fst := by
        have := List.elem_iff.mp h'
        exact this
      obtain ⟨p, hp, hpc⟩ := List.mem_map.mp this
      exact h p hp hpc
  rw [← Bool.not_eq_true]
  intro hcon
  exact hmemF (List.elem_iff.mp hcon)

/-- The rendered body of any code-unit sequence scans clean: every character
the specification lists is escaped, backslashes start escapes, and surrogates
appear only as adjacent pairs. -/
theorem ssBody_bodyOK : ∀ n u, u.length ≤ n → bodyOK (ssBody u) = true := by
  intro n
  induction n with
  | zero =>
      intro u hu
      have : u = [] := List.length_eq_zero.mp (Nat.le_zero.mp hu)
      subst this
      decide
  | succ n ih =>
      intro u hu
      match u with
      | [] => decide
      | [c] =>
          simp only [ssBody]
          by_cases hc : c = 34
          · rw [if_pos hc]; decide
          · rw [if_neg hc]
            cases hesc : escapedU c with
            | some e => exact bodyOK_escapedU hesc
            | none =>
                by_cases hsurr : isSurrogate c
                · rw [if_pos hsurr]
                  exact bodyOK_hexEscU c
                · rw [if_neg hsurr]
                  have := escapedU_none_safe hesc hc (by simpa using hsurr)
                  rw [bodyOK_cons_safe this]
                  decide
      | c :: next :: rest' =>
          have hlen1 : (next :: rest').length ≤ n := by
            simp at hu ⊢
            omega
          have hlen2 : rest'.length ≤ n := by
            simp at hu ⊢
            omega
          simp only [ssBody]
          by_cases hc : c = 34
          · rw [if_pos hc]
            rw [bodyOK_append' [92, 34] (by decide)]
            exact ih _ hlen1
          · rw [if_neg hc]
            cases hesc : escapedU c with
            | some e =>
                rw [bodyOK_append' e (bodyOK_escapedU hesc)]
                exact ih _ hlen1
            | none =>
                by_cases hsurr : isSurrogate c
                · rw [if_pos hsurr]
                  by_cases hpair : (c ≤ 56319 && isLowSurrogate next) = true
                  · rw [if_pos hpair]
                    simp only [Bool.and_eq_true, decide_eq_true_eq] at hpair
                    have hhigh : isHighSurrogate c = true := by
                      simp only [isSurrogate, Bool.and_eq_true, decide_eq_true_eq] at hsurr
                      simp only [isHighSurrogate, Bool.and_eq_true, decide_eq_true_eq]
                      omega
                    rw [bodyOK_pair hhigh hpair.2]
                    exact ih _ hlen2
                  · rw [if_neg hpair]
                    rw [bodyOK_append' _ (bodyOK_hexEscU c)]
                    exact ih _ hlen1
                · rw [if_neg hsurr]
                  have := escapedU_none_safe hesc hc (by simpa using hsurr)
                  rw [bodyOK_cons_safe this]
                  exact ih _ hlen1

/-- If `devalue` throws the splice `TypeError`, the walk pass did. -/
theorem devalue_typeError {jp : JsonParse} {ll fuel : Nat} {h : Heap} {v : JSValue}
    (hcon : devalue jp ll fuel h v = .error .typeError) :
    walkTop jp ll fuel h v = .error .typeError := by
  unfold devalue at hcon
  cases hx : walkTop jp ll fuel h v with
  | error e =>
      rw [hx] at hcon
      simp only [Bind.bind, Except.bind, Except.error.injEq] at hcon
      rw [hcon]
  | ok s =>
      rw [hx] at hcon
      simp only [Bind.bind, Except.bind] at hcon
      exact absurd hcon (by split <;> [simp; split <;> [simp; split <;> simp]])

end Devalue

namespace Devalue

set_option maxRecDepth 8000

/-! ## Claim theorems -/

/-! C1 is the round-trip property: evaluating `serialize(v)` in a compatible
engine reconstructs `v`.  It quantifies over the external evaluation engine,
which the specification declares out of scope; it is recorded as unresolved
and no theorem is stated for it. -/

/-- Claim C2, counterexample: `serialize` does raise for a value whose root
carries a `toJSON` member — the conversion-hook splice assigns through the
undefined parent of the root and throws a `TypeError`. -/
theorem claim2_counterexample :
    devalue jpNone 99 32 heapRootToJSON (.ref 0) = .error .typeError := by
  decide

/-- Claim C2, amended: `serialize` returns expression text rather than
throwing for every input containing no toJSON-bearing node (stack exhaustion,
modelled as fuel, remains the specification's separate fatal condition); an
input whose root carries a conversion member makes the splice target
undefined and the call throws. -/
theorem claim2_amended (jp : JsonParse) (ll fuel : Nat) (h : Heap) (v : JSValue)
    (hnt : heapNoToJSON h = true) :
    devalue jp ll fuel h v ≠ .error .typeError := by
  intro hcon
  have hw := devalue_typeError hcon
  have hn := walkGo_noToJSON jp ll fuel (.one v .undefv none none) (initState h) hnt
  rw [show walkGo jp ll fuel (.one v .undefv none none) (initState h) =
        walkTop jp ll fuel h v from rfl, hw] at hn
  exact hn rfl

/-- Witness for C2's amended theorem at a concrete toJSON-free input. -/
theorem claim2_witness : devalue jpNone 99 8 [] (.num 1) ≠ .error .typeError :=
  claim2_amended jpNone 99 8 [] (.num 1) (by decide)

/-- Claim C3, counterexample: `serialize({a: 1, b: [1, 2, 3]})` does not
return the plain literal — this implementation reference-counts primitives
too, the number 1 occurs twice, so it is named and a wrapper is emitted. -/
theorem claim3_counterexample :
    devalue jpNone 99 32 heapScenario (.ref 0) ≠ .ok "\x7ba:1,b:[1,2,3]\x7d" := by
  decide

/-- Claim C3, amended: `serialize({a: 1, b: [1, 2, 3]})` returns the
self-invoking wrapper `(function(a){return {a:a,b:[a,2,3]}}(1))`, because the
count table is updated before the primitive check (lines 45-50), the number 1
repeats, and every value counted more than once is named. -/
theorem claim3_amended :
    devalue jpNone 99 32 heapScenario (.ref 0) =
      .ok "(function(a)\x7breturn \x7ba:a,b:[a,2,3]\x7d\x7d(1))" ∧
    (devalueCounts jpNone 99 32 heapScenario (.ref 0)).map
      (fun c => countsFind c (.num 1)) = .ok (some (some 2)) := by
  constructor
  · decide
  · decide

/-- Claim C4, counterexample: a callable value does not vanish from its
container — the emitter renders it in place as an empty record literal, so
`serialize([f])` is `[{}]`, not `[]`, and serializing a bare function yields
`{}`. -/
theorem claim4_counterexample :
    devalue jpNone 99 16 heapFnArr (.ref 0) = .ok "[\x7b\x7d]" ∧
    "[\x7b\x7d]" ≠ "[]" ∧
    devalue jpNone 99 8 [] (.fn "f") = .ok "\x7b\x7d" := by
  refine ⟨by decide, by decide, by decide⟩

/-- Claim C4, amended: the walk never counts or traverses a callable (it only
emits the uncapped diagnostic), but the emitter does not drop it: a callable
reaches the default branch of `stringify` and is rendered as `{}` (its empty
own-key record) in place, so `serialize([f])` is `[{}]` and
`serialize({a: f})` is `{a:{}}`. -/
theorem claim4_amended :
    (∀ (jp : JsonParse) (ll fuel : Nat) (nm : String) (p : JSValue)
        (k : Option String) (i : Option Nat) (s : WState),
      walkGo jp ll (fuel + 1) (.one (.fn nm) p k i) s =
        .ok (emitDirect s ("Cannot stringify a function " ++ nm))) ∧
    (∀ (jp : JsonParse) (names : Names) (fuel : Nat) (h : Heap) (nm : String),
      namesGet names (.fn nm) = none →
      stringify jp names (fuel + 1) h (.fn nm) = some "\x7b\x7d") ∧
    devalue jpNone 99 16 heapFnArr (.ref 0) = .ok "[\x7b\x7d]" ∧
    devalue jpNone 99 16 heapFnRec (.ref 0) = .ok "\x7ba:\x7b\x7d\x7d" := by
  refine ⟨fun jp ll fuel nm p k i s => rfl, ?_, by decide, by decide⟩
  intro jp names fuel h nm hn
  simp only [stringify, hn, isPrimitive]
  rfl

/-- Witness for C4's amended theorem: the emitter clause at a concrete
callable. -/
theorem claim4_witness : stringify jpNone [] 8 [] (.fn "f") = some "\x7b\x7d" :=
  claim4_amended.2.1 jpNone [] 7 [] "f" rfl

/-- Claim C5, counterexample: the callable-value diagnostic bypasses the
rate-limited `log` helper, so an array of 100 functions emits 100
diagnostics in one call — more than the configured cap of 99. -/
theorem claim5_counterexample :
    (devalueDiagnostics jpNone 99 300 heapManyFns (.ref 0)).map List.length = .ok 100 ∧
    99 < 100 := by
  refine ⟨by decide, by decide⟩

/-- Claim C5, amended: the rate limiter caps only the diagnostics routed
through `log` (the non-POJO and symbolic-keys messages): in any completed
walk at most `logLimit` capped diagnostics are emitted and the rest are
silently dropped, while the callable-value diagnostic is sent to the sink
directly and is not counted against the cap. -/
theorem claim5_amended (jp : JsonParse) (ll fuel : Nat) (h : Heap) (v : JSValue)
    (s' : WState) (hw : walkTop jp ll fuel h v = .ok s') :
    cappedLen s'.emitted ≤ ll := by
  have hi := walkGo_stepInv jp ll fuel _ _ _ hw
  have h1 := hi.capped_eq
  have h2 := hi.logNum_le
  simp only [initState] at h1 h2
  rw [show cappedLen ([] : List Diag) = 0 from rfl] at h1
  omega

/-- Witness for C5's amended theorem at a concrete run that logs a capped
diagnostic. -/
theorem claim5_witness :
    cappedLen ((walkTop jpNone 99 32 heapCustomProto (.ref 0)).toOption.getD
      (initState [])).emitted ≤ 99 :=
  claim5_amended jpNone 99 32 heapCustomProto (.ref 0) _ (by decide)

/-- Claim C6, counterexample: the converted result of a toJSON node is not
recursively canonicalized — node 1's conversion returns node 2, the array
`["z"]`, which is spliced into the parent and counted once, but its child
`"z"` never enters the reference-count table. -/
theorem claim6_counterexample :
    devalueToJSONCalls jpNone 99 32 heapToJSONChild (.ref 0) = .ok [1] ∧
    lookupObj heapToJSONChild 2 = some (.arr [some (.str "z")]) ∧
    (devalueCounts jpNone 99 32 heapToJSONChild (.ref 0)).map
      (fun c => countsFind c (.str "z")) = .ok none ∧
    (devalueCounts jpNone 99 32 heapToJSONChild (.ref 0)).map
      (fun c => countsFind c (.ref 2)) = .ok (some (some 1)) := by
  refine ⟨by decide, by decide, by decide, by decide⟩

/-- Claim C6, amended: during canonicalization the conversion method is
invoked at most once per original node (the walk's invocation trace is
duplicate-free), and a repeated encounter of a cached node re-invokes
nothing: it reuses the cached converted result, increments that result's
count, and splices it into the parent — but the converted result is not
recursively canonicalized (its children stay uncounted). -/
theorem claim6_amended :
    (∀ (jp : JsonParse) (ll fuel : Nat) (h : Heap) (v : JSValue) (s' : WState),
      walkTop jp ll fuel h v = .ok s' → s'.toJSONCalls.Nodup) ∧
    (∀ (jp : JsonParse) (ll fuel : Nat) (s : WState) (a : Nat) (pr : Proto)
        (fs : List (String × JSValue)) (jret : JSValue) (sk : List String)
        (json parent : JSValue) (key : Option String) (index : Option Nat) (h' : Heap),
      countsFind s.counts (.ref a) = none →
      lookupObj s.heap a = some (.record pr fs (some jret) sk) →
      cacheGet s.mapObjToJSON a = some json →
      spliceInto parent key index json s.heap = .ok h' →
      walkGo jp ll (fuel + 1) (.one (.ref a) parent key index) s =
        .ok { s with counts := countsSet s.counts json (bumpLookup s.counts json),
                     heap := h' }) := by
  constructor
  · intro jp ll fuel h v s' hw
    have hi := walkGo_stepInv jp ll fuel _ _ _ hw
    have := hi.calls_ok ⟨List.nodup_nil, by simp [initState, cacheGet]⟩
    exact this.1
  · intro jp ll fuel s a pr fs jret sk json parent key index h' hno hrec hcache hsplice
    have hhas : countsHas s.counts (.ref a) = false := by
      simp [countsHas, hno]
    simp only [walkGo, hhas, Bool.false_eq_true, if_false, isPrimitive]
    simp only [hrec, hcache]
    rw [countsDel_set_self hno]
    simp only [hsplice, Except.map]

/-- Witness for C6's amended theorem: the duplicate-freeness at a concrete
run, and the cached-encounter clause at a concrete mid-walk state. -/
theorem claim6_witness :
    ((walkTop jpNone 99 32 heapToJSONChild (.ref 0)).toOption.getD
      (initState [])).toJSONCalls.Nodup ∧
    walkGo jpNone 99 5 (.one (.ref 0) (.ref 1) (some "k") none) cachedState =
      .ok { cachedState with
              counts := [(.num 5, some 2)],
              heap := [(0, .record .objectProto [] (some (.num 1)) []),
                       (1, .record .objectProto [("k", .num 5)] none [])] } :=
  ⟨claim6_amended.1 jpNone 99 32 heapToJSONChild (.ref 0) _ (by decide),
   claim6_amended.2 jpNone 99 4 cachedState 0 .objectProto [] (.num 1) []
     (.num 5) (.ref 1) (some "k") none _ (by decide) (by decide) (by decide) (by decide)⟩

/-- Claim C7, counterexample: for a record with a foreign prototype (and no
conversion member) the walk emits the "unsupported custom type" diagnostic
but does not descend into the record's own keys — the key's value `"hello"`
is absent from the count table — even though the emitter still renders the
keys in the output. -/
theorem claim7_counterexample :
    devalueDiagnostics jpNone 99 32 heapCustomProto (.ref 0) =
      .ok [⟨true, "Cannot stringify arbitrary non-POJOs Foo"⟩] ∧
    (devalueCounts jpNone 99 32 heapCustomProto (.ref 0)).map
      (fun c => countsFind c (.str "hello")) = .ok none ∧
    devalue jpNone 99 32 heapCustomProto (.ref 0) = .ok "\x7bx:\"hello\"\x7d" := by
  refine ⟨by decide, by decide, by decide⟩

/-- Claim C7, amended: on a first-seen record whose prototype is neither the
base record prototype nor null (no conversion member), the walk emits the
"unsupported custom type" diagnostic and stops — it does not descend into the
record's own string keys during canonicalization — while the emitter still
renders those keys in the output. -/
theorem claim7_amended :
    (∀ (jp : JsonParse) (ll fuel : Nat) (s : WState) (a : Nat) (ctor : String)
        (fs : List (String × JSValue)) (sk : List String) (parent : JSValue)
        (key : Option String) (index : Option Nat),
      countsFind s.counts (.ref a) = none →
      lookupObj s.heap a = some (.record (.custom ctor false) fs none sk) →
      walkGo jp ll (fuel + 1) (.one (.ref a) parent key index) s =
        .ok (logMsg ll { s with counts := countsSet s.counts (.ref a) (some 1) }
          ("Cannot stringify arbitrary non-POJOs " ++ ctor))) ∧
    devalue jpNone 99 32 heapCustomProto (.ref 0) = .ok "\x7bx:\"hello\"\x7d" := by
  refine ⟨?_, by decide⟩
  intro jp ll fuel s a ctor fs sk parent key index hno hrec
  have hhas : countsHas s.counts (.ref a) = false := by
    simp [countsHas, hno]
  simp only [walkGo, hhas, Bool.false_eq_true, if_false, isPrimitive]
  simp only [hrec, isForeignProto, Bool.not_false, if_pos]
  rfl

/-- Witness for C7's amended theorem at a concrete foreign-prototype
record. -/
theorem claim7_witness :
    walkGo jpNone 99 2 (.one (.ref 0) .undefv none none) (initState heapCustomProto) =
      .ok (logMsg 99 { initState heapCustomProto with
            counts := [(.ref 0, some 1)] }
        "Cannot stringify arbitrary non-POJOs Foo") :=
  claim7_amended.1 jpNone 99 1 (initState heapCustomProto) 0 "Foo"
    [("x", .str "hello")] [] .undefv none none (by decide) (by decide)

/-- Claim C8: a self-referential record `a` with `a.self = a` serializes
without infinite recursion (a fixed fuel of 32 completes, independently of
the parse hook and the diagnostic cap) and the result is the self-invoking
wrapper that receives an empty shell object and assigns the binding's `self`
property to the binding itself before returning it. -/
theorem claim8_cycle_safety (jp : JsonParse) (ll : Nat) :
    devalue jp ll 32 [(0, .record .objectProto [("self", .ref 0)] none [])] (.ref 0) =
      .ok "(function(a)\x7ba.self=a;return a\x7d(\x7b\x7d))" := by
  rfl

/-- Claim C9: `stringifyString` wraps every rendered text in double quotes;
the body between the quotes scans clean — every double quote, angle bracket,
slash, backslash, listed control character and line/paragraph separator
occurs only inside an escape sequence, and surrogate code units occur only as
adjacent high-low pairs; a lone surrogate becomes `\uXXXX` whose hex digits
are uppercase; and `serialize("</script>")` yields
`"</script>"`, which contains no `</` sequence. -/
theorem claim9_escaping :
    (∀ u, stringifyStringUnits u = 34 :: ssBody u ++ [34]) ∧
    (∀ u, bodyOK (ssBody u) = true) ∧
    (∀ c, isSurrogate c = true →
      ssBody [c] = hexEscU c ∧ ∀ d ∈ (hexEscU c).drop 2, d ∈ upperHexUnits) ∧
    devalue jpNone 99 8 [] (.str "</script>") = .ok "\"\\u003C\\u002Fscript\\u003E\"" ∧
    ¬ ['<', '/'] <:+: "\"\\u003C\\u002Fscript\\u003E\"".toList := by
  refine ⟨fun u => rfl, fun u => ssBody_bodyOK u.length u le_rfl, ?_, by decide, by decide⟩
  intro c hc
  have h34 : ¬ c = 34 := by
    simp only [isSurrogate, Bool.and_eq_true, decide_eq_true_eq] at hc
    omega
  constructor
  · simp only [ssBody, if_neg h34, escapedU_surrogate_none hc, if_pos hc]
  · intro d hd
    simp only [hexEscU, List.drop_succ_cons, List.drop_zero, List.mem_cons,
      List.not_mem_nil, or_false] at hd
    rcases hd with rfl | rfl | rfl | rfl <;> exact mem_upperHex_hexDigitUpper _

/-- Witness for C9: the lone-surrogate clause at the concrete low surrogate
U+DC00. -/
theorem claim9_witness : ssBody [56320] = hexEscU 56320 :=
  (claim9_escaping.2.2.1 56320 (by decide)).1

/-- Claim C10: on an input graph with no toJSON-bearing node, `serialize`
leaves the caller's value graph untouched — the walk pass returns the heap
exactly as it received it (and the emitter only reads it).  Only the
conversion-hook splice ever writes into the input. -/
theorem claim10_frame (jp : JsonParse) (ll fuel : Nat) (h : Heap) (v : JSValue)
    (h' : Heap) (hnt : heapNoToJSON h = true)
    (hw : devalueFinalHeap jp ll fuel h v = .ok h') : h' = h := by
  unfold devalueFinalHeap at hw
  rw [emap_ok] at hw
  obtain ⟨s, hs, hh⟩ := hw
  have hn := walkGo_noToJSON jp ll fuel (.one v .undefv none none) (initState h) hnt
  rw [show walkGo jp ll fuel (.one v .undefv none none) (initState h) =
        walkTop jp ll fuel h v from rfl, hs] at hn
  rw [← hh]
  exact hn

/-- Witness for C10 at a concrete toJSON-free graph. -/
theorem claim10_witness :
    (devalueFinalHeap jpNone 99 32 heapScenario (.ref 0)).toOption.getD [] = heapScenario :=
  claim10_frame jpNone 99 32 heapScenario (.ref 0) _ (by decide) (by decide)

end Devalue
